import Mathlib

/-!
Verification of the `rust-mcp-filesystem` FileSystemService against its
natural-language specification.

The Rust source is shallowly embedded: paths are modelled as lists of
components, file contents as lists of characters (bytes of the claims'
inputs are ASCII), fallible operations return `Except`, and the single
filesystem write of an operation is modelled as an explicit `Option`
result.  Machine-integer (`usize`) wrap-around is modelled explicitly
with `% 2^64` where the source can overflow.
-/

namespace FsService

/-- A filesystem path, modelled the way Rust's `Path::components` views it:
an absoluteness flag plus the list of components.  `.` and `..` components
are kept literally (the service's `validate_path` deliberately does not
resolve them in the returned path). -/
structure RPath where
  absolute : Bool
  segs : List String
deriving DecidableEq, Repr

/-- Rust `PathBuf::join`: an absolute right operand replaces the whole
path, otherwise the components are appended. -/
def joinP (base p : RPath) : RPath :=
  if p.absolute then p else ⟨base.absolute, base.segs ++ p.segs⟩

/-- Modelled from the spec: `normalize_path` (in the repository's
`fs_service::utils` module, which is not part of the provided sources)
normalizes lexically — it collapses `.`, resolves `..` by popping the
previous segment (never popping above the root), and strips redundant
separators (empty components in this model). -/
def normalize_path (p : RPath) : RPath :=
  ⟨p.absolute,
    p.segs.foldl
      (fun acc s =>
        if s = "." ∨ s = "" then acc
        else if s = ".." then acc.dropLast
        else acc ++ [s])
      []⟩

/-- Modelled from the spec: `expand_home` (in the repository's
`fs_service::utils` module, not part of the provided sources) expands a
leading `~` component of a relative path to the process home directory,
leaving the path unchanged when no home directory is available. -/
def expand_home (home : Option RPath) (p : RPath) : RPath :=
  match p.segs with
  | "~" :: rest =>
      if p.absolute then p
      else
        match home with
        | some h => ⟨h.absolute, h.segs ++ rest⟩
        | none => p
  | _ => p

/-- Rust `Path::starts_with`: component-wise prefix test (whole
components, not substrings). -/
def startsWithP (p base : RPath) : Bool :=
  p.absolute == base.absolute && base.segs.isPrefixOf p.segs

/-- Errors of `validate_path` (the symlink/non-symlink wording of the
denial message depends on on-disk state and is collapsed into one
constructor). -/
inductive PathError where
  | noAllowedRoots
  | accessDenied
deriving DecidableEq, Repr

/-- `FileSystemService::validate_path` (src/fs_service/core.rs,
src/fs_service.rs): fail on an empty allow-list, home-expand, absolutize
against the current directory, lexically normalize, and accept exactly
when the normalized path starts with some allowed root as given or with
its lexical normalization.  The returned path is the home-expanded
absolutized path, not the normalized one. -/
def validate_path (cwd : RPath) (home : Option RPath) (requested : RPath)
    (allowed : List RPath) : Except PathError RPath :=
  if allowed.isEmpty then
    .error .noAllowedRoots
  else
    let expanded := expand_home home requested
    let absolutePath := if expanded.absolute then expanded else joinP cwd expanded
    let normalizedRequested := normalize_path absolutePath
    if allowed.any (fun dir =>
        startsWithP normalizedRequested dir
          || startsWithP normalizedRequested (normalize_path dir)) then
      .ok absolutePath
    else
      .error .accessDenied

/-- The home-expanded, absolutized form of a request (the value
`absolute_path` in the source). -/
def absolutized (cwd : RPath) (home : Option RPath) (requested : RPath) : RPath :=
  let expanded := expand_home home requested
  if expanded.absolute then expanded else joinP cwd expanded

/-- The acceptance condition of the claim, stated with propositional
component-prefix (`<+:`) comparison. -/
def acceptedBy (cwd : RPath) (home : Option RPath) (requested : RPath)
    (allowed : List RPath) : Prop :=
  ∃ dir ∈ allowed,
    (dir.absolute = (normalize_path (absolutized cwd home requested)).absolute ∧
      dir.segs <+: (normalize_path (absolutized cwd home requested)).segs) ∨
    ((normalize_path dir).absolute = (normalize_path (absolutized cwd home requested)).absolute ∧
      (normalize_path dir).segs <+: (normalize_path (absolutized cwd home requested)).segs)

theorem startsWithP_iff (p base : RPath) :
    startsWithP p base = true ↔ base.absolute = p.absolute ∧ base.segs <+: p.segs := by
  simp only [startsWithP, Bool.and_eq_true, beq_iff_eq, List.isPrefixOf_iff_prefix]
  tauto

theorem validate_path_eq_of_ne_nil (cwd : RPath) (home : Option RPath)
    (requested : RPath) (allowed : List RPath) (he : allowed.isEmpty = false) :
    validate_path cwd home requested allowed =
      if allowed.any (fun dir =>
          startsWithP (normalize_path (absolutized cwd home requested)) dir
            || startsWithP (normalize_path (absolutized cwd home requested))
                (normalize_path dir)) then
        .ok (absolutized cwd home requested)
      else
        .error .accessDenied := by
  unfold validate_path absolutized
  simp only [he, Bool.false_eq_true, if_false]

theorem validate_path_isOk_iff (cwd : RPath) (home : Option RPath) (requested : RPath)
    (allowed : List RPath) (h : allowed ≠ []) :
    (validate_path cwd home requested allowed).isOk = true ↔
      acceptedBy cwd home requested allowed := by
  have he : allowed.isEmpty = false := by simpa [List.isEmpty_iff] using h
  rw [validate_path_eq_of_ne_nil cwd home requested allowed he]
  split
  case isTrue hany =>
    simp only [Except.isOk, Except.toBool, true_iff]
    rw [List.any_eq_true] at hany
    obtain ⟨dir, hmem, hp⟩ := hany
    rw [Bool.or_eq_true, startsWithP_iff, startsWithP_iff] at hp
    exact ⟨dir, hmem, hp⟩
  case isFalse hany =>
    simp only [Except.isOk, Except.toBool, Bool.false_eq_true, false_iff]
    intro ⟨dir, hmem, hp⟩
    exact hany (List.any_eq_true.2 ⟨dir, hmem, by
      rw [Bool.or_eq_true, startsWithP_iff, startsWithP_iff]; exact hp⟩)

/-- C2: `validate_path` fails with the empty-allow-list error when the
allow-list is empty; otherwise it accepts a request exactly when the
lexical normalization of the home-expanded, absolutized request has some
allowed root — as given or lexically normalized — as a whole-component
prefix; component comparison is not substring comparison, so `/a/bc` is
rejected for root `/a/b`. -/
theorem C2_validate_path_accept_iff (cwd : RPath) (home : Option RPath)
    (requested : RPath) (allowed : List RPath) :
    (allowed = [] →
      validate_path cwd home requested allowed = .error .noAllowedRoots)
    ∧ (allowed ≠ [] →
      ((validate_path cwd home requested allowed).isOk = true ↔
        acceptedBy cwd home requested allowed))
    ∧ validate_path ⟨true, []⟩ none ⟨true, ["a", "bc"]⟩ [⟨true, ["a", "b"]⟩]
        = .error .accessDenied := by
  refine ⟨?_, ?_, ?_⟩
  · intro h; subst h; rfl
  · exact validate_path_isOk_iff cwd home requested allowed
  · rfl

theorem C2_validate_path_accept_iff_witness :
    validate_path ⟨true, []⟩ none ⟨true, ["x"]⟩ [] = .error .noAllowedRoots
    ∧ (validate_path ⟨true, []⟩ none ⟨true, ["a", "c"]⟩ [⟨true, ["a"]⟩]).isOk = true := by
  refine ⟨(C2_validate_path_accept_iff ⟨true, []⟩ none ⟨true, ["x"]⟩ []).1 rfl, ?_⟩
  refine ((C2_validate_path_accept_iff ⟨true, []⟩ none ⟨true, ["a", "c"]⟩
    [⟨true, ["a"]⟩]).2.1 (by simp)).2 ?_
  exact ⟨⟨true, ["a"]⟩, by simp, Or.inl ⟨rfl, by decide⟩⟩

/-- C9: when `validate_path` accepts, the returned path is the
home-expanded, absolutized request exactly as supplied — not the
lexically normalized form used for the allow-list check — so it may
still contain `.` and `..` components. -/
theorem C9_validate_path_returns_unnormalized (cwd : RPath) (home : Option RPath)
    (requested : RPath) (allowed : List RPath) (v : RPath)
    (h : validate_path cwd home requested allowed = .ok v) :
    v = absolutized cwd home requested := by
  rcases he : allowed.isEmpty with _ | _
  · rw [validate_path_eq_of_ne_nil cwd home requested allowed he] at h
    split at h
    · exact (Except.ok.inj h).symm
    · exact absurd h (by simp)
  · rw [show validate_path cwd home requested allowed = .error .noAllowedRoots from by
      unfold validate_path; simp [he]] at h
    exact absurd h (by simp)

theorem C9_validate_path_returns_unnormalized_witness :
    (⟨true, ["a", "b", "..", "c"]⟩ : RPath) =
      absolutized ⟨true, []⟩ none ⟨true, ["a", "b", "..", "c"]⟩
    ∧ ".." ∈ (⟨true, ["a", "b", "..", "c"]⟩ : RPath).segs := by
  refine ⟨C9_validate_path_returns_unnormalized ⟨true, []⟩ none
    ⟨true, ["a", "b", "..", "c"]⟩ [⟨true, ["a"]⟩] _ (by rfl), by decide⟩

/-! ### Archive engine: `unzip_file` (src/fs_service/archive/unzip.rs) -/

/-- Split a character list at every `/`, keeping the pieces. -/
def splitSlash : List Char → List (List Char)
  | [] => [[]]
  | '/' :: t => [] :: splitSlash t
  | c :: t =>
      match splitSlash t with
      | g :: gs => (c :: g) :: gs
      | [] => [[c]]

/-- A ZIP entry name viewed as a path: absolute when it starts with `/`,
components split on `/` (as Rust's `Path::components` would). -/
def parseZipEntryName (s : String) : RPath :=
  ⟨(match s.toList with | '/' :: _ => true | _ => false),
    ((splitSlash s.toList).filter (· ≠ [])).map (fun cs => String.mk cs)⟩

/-- The path `unzip_file` creates for one entry:
`target_dir_path.join(entry.filename())` — a direct `PathBuf::join`
with no entry-name sanitization. -/
def unzipEntryPath (targetDir : RPath) (entryName : String) : RPath :=
  joinP targetDir (parseZipEntryName entryName)

/-- The complete list of filesystem paths `unzip_file` writes: one per
archive entry, in order; no entry is rejected. -/
def unzipWrittenPaths (targetDir : RPath) (entries : List String) : List RPath :=
  entries.map (unzipEntryPath targetDir)

/-- An on-disk path lies under the extraction target when its lexical
resolution still has the target directory as a whole-component prefix. -/
def liesUnder (targetDir p : RPath) : Bool :=
  startsWithP (normalize_path p) (normalize_path targetDir)

/-- C1 (refuted; the code is the bug): `unzip_file` does not reject
entry names with `..` segments or absolute paths.  A zip containing the
single entry `"../evil.txt"` extracted into `/data/out` is written to
`/data/out/../evil.txt`, which resolves to `/data/evil.txt`, outside the
target directory; an absolute entry name `/etc/evil` replaces the target
entirely. -/
theorem C1_unzip_no_zip_slip_defense :
    unzipWrittenPaths ⟨true, ["data", "out"]⟩ ["../evil.txt"]
      = [⟨true, ["data", "out", "..", "evil.txt"]⟩]
    ∧ liesUnder ⟨true, ["data", "out"]⟩ ⟨true, ["data", "out", "..", "evil.txt"]⟩ = false
    ∧ unzipEntryPath ⟨true, ["data", "out"]⟩ "/etc/evil" = ⟨true, ["etc", "evil"]⟩
    ∧ liesUnder ⟨true, ["data", "out"]⟩ ⟨true, ["etc", "evil"]⟩ = false := by
  refine ⟨rfl, rfl, rfl, rfl⟩

/-! ### Traversal engine: the size filter of `search_files_iter`
(src/fs_service.rs, src/fs_service/search/files.rs) -/

/-- `FileSystemService::filesize_in_range`, translated clause by clause
(the two `match` arms carry guards, tested in order). -/
def filesize_in_range (fileSize : Nat) (minBytes maxBytes : Option Nat) : Bool :=
  if minBytes.isNone && maxBytes.isNone then true
  else if (match maxBytes with | some max => decide (fileSize > max) | none => false) then false
  else if (match minBytes with | some min => decide (fileSize < min) | none => false) then false
  else true

/-- The `filter_entry` closure of `search_files_iter`, after the
allow-list validation step (its first early return).  `excludedByPattern`
is the result of the exclude-glob test; `metadata` is `some size` when
`dir_entry.metadata()` succeeds and `none` when it fails.  Note the size
clause runs whenever `min_bytes.is_none() || max_bytes.is_none()` and
never consults the entry's file type.  Returns `true` when the entry is
kept. -/
def filterEntryKeep (excludedByPattern : Bool) (metadata : Option Nat)
    (minBytes maxBytes : Option Nat) : Bool :=
  let shouldExclude := excludedByPattern
  let shouldExclude :=
    if !shouldExclude && (minBytes.isNone || maxBytes.isNone) then
      match metadata with
      | some len => if !filesize_in_range len minBytes maxBytes then true else shouldExclude
      | none => true
    else shouldExclude
  !shouldExclude

/-- C3 (refuted): the claim says the size filter is skipped whenever
either bound is unspecified, so an entry's size never causes its
exclusion in that case.  In the code the guard is
`min_bytes.is_none() || max_bytes.is_none()`: a 5-byte file with
`min_bytes = some 10` and `max_bytes = none` is excluded by its size
even though one bound is unspecified (a 50-byte file is kept). -/
theorem C3_counterexample_size_filter :
    filterEntryKeep false (some 5) (some 10) none = false
    ∧ filterEntryKeep false (some 50) (some 10) none = true := by
  exact ⟨rfl, rfl⟩

/-- C3 (amended): the size clause of `filter_entry` runs exactly when at
least one of the two bounds is unspecified, for every walked entry
regardless of its file type: with both bounds present every size is
kept; with only `min_bytes` the lower bound is enforced; with only
`max_bytes` the upper bound is enforced; with neither bound the size
check passes trivially, but an entry whose metadata cannot be read is
excluded whenever the clause runs. -/
theorem C3_size_filter_characterization (s lo hi : Nat) :
    (filterEntryKeep false (some s) (some lo) (some hi) = true)
    ∧ (filterEntryKeep false (some s) (some lo) none = true ↔ lo ≤ s)
    ∧ (filterEntryKeep false (some s) none (some hi) = true ↔ s ≤ hi)
    ∧ (filterEntryKeep false (some s) none none = true)
    ∧ (filterEntryKeep false none (some lo) none = false)
    ∧ (filterEntryKeep false none none none = false) := by
  refine ⟨rfl, ?_, ?_, rfl, rfl, rfl⟩
  · by_cases h : s < lo
    · simp [filterEntryKeep, filesize_in_range, h, Nat.not_le.2 h]
    · simp [filterEntryKeep, filesize_in_range, h, Nat.not_lt.1 h]
  · by_cases h : hi < s
    · simp [filterEntryKeep, filesize_in_range, h, Nat.not_le.2 h]
    · simp [filterEntryKeep, filesize_in_range, h, Nat.not_lt.1 h]

theorem C3_size_filter_characterization_witness :
    filterEntryKeep false (some 7) (some 3) none = true ↔ 3 ≤ 7 :=
  (C3_size_filter_characterization 7 3 0).2.1

/-! ### Text edit engine: `apply_file_edits` (src/fs_service/io/edit.rs,
src/fs_service.rs).  File contents are lists of characters; the
operations mirror the Rust string primitives the function uses. -/

/-- Modelled from the spec: `normalize_line_endings` (in the
repository's `fs_service::utils` module, not part of the provided
sources) rewrites every `\r\n` to `\n`, scanning left to right. -/
def normalize_line_endings : List Char → List Char
  | '\r' :: '\n' :: t => '\n' :: normalize_line_endings t
  | c :: t => c :: normalize_line_endings t
  | [] => []

/-- Index of the first occurrence of `needle` in `hay`
(Rust `str::find` / the test behind `str::contains`). -/
def firstMatchIdx (needle : List Char) : List Char → Option Nat
  | [] => if needle = [] then some 0 else none
  | c :: t =>
      if needle.isPrefixOf (c :: t) then some 0
      else (firstMatchIdx needle t).map (· + 1)

/-- `FileSystemService::detect_line_ending`: `\r\n` when present
anywhere, else `\r` when present, else `\n`. -/
def detect_line_ending (content : List Char) : List Char :=
  if (firstMatchIdx ['\r', '\n'] content).isSome then ['\r', '\n']
  else if content.contains '\r' then ['\r'] else ['\n']

/-- Rust `str::split('\n')`: all pieces, empty pieces kept. -/
def splitNL : List Char → List (List Char)
  | [] => [[]]
  | c :: t =>
      if c = '\n' then [] :: splitNL t
      else (c :: (splitNL t).headD []) :: (splitNL t).tail

/-- Rust `str::trim_start` (the inputs of the claims are ASCII, so
`Char.isWhitespace` matches Rust's Unicode whitespace test on them). -/
def trimStartL (l : List Char) : List Char := l.dropWhile Char.isWhitespace

/-- Rust `str::trim_end`. -/
def trimEndL (l : List Char) : List Char := (l.reverse.dropWhile Char.isWhitespace).reverse

/-- Rust `str::trim`. -/
def trimL (l : List Char) : List Char := trimStartL (trimEndL l)

/-- `chars().take_while(|c| c.is_whitespace())`: the leading-whitespace
prefix of a line. -/
def leadingWS (l : List Char) : List Char := l.takeWhile Char.isWhitespace

/-- The window comparison of the fuzzy pass: every line of `old_lines`
trim-equal to the corresponding line of the window starting at `i`. -/
def windowMatches (contentLines oldLines : List (List Char)) (i : Nat) : Bool :=
  (List.range oldLines.length).all fun j =>
    trimL ((oldLines.get? j).getD []) == trimL ((contentLines.get? (i + j)).getD [])

/-- The fuzzy pass scan: the first window start `i` in
`0..=content_lines.len() - old_lines.len()` whose window matches. -/
def findWindow (contentLines oldLines : List (List Char)) : Option Nat :=
  (List.range (contentLines.length - oldLines.length + 1)).find?
    (windowMatches contentLines oldLines)

/-- One replacement line of the fuzzy splice (the closure mapped over
`normalized_new.split('\n').enumerate()`). -/
def buildLine (originalIndent : List Char) (oldLines : List (List Char))
    (j : Nat) (line : List Char) : List Char :=
  if j = 0 then originalIndent ++ trimStartL line
  else
    let oldIndent := leadingWS ((oldLines.get? j).getD [])
    let newIndent := leadingWS line
    let indentChar : Char := if originalIndent.contains '\t' then '\t' else ' '
    let relativeIndent := newIndent.length - oldIndent.length
    originalIndent ++ List.replicate relativeIndent indentChar ++ trimStartL line

/-- All replacement lines of the fuzzy splice, with the running
enumeration index. -/
def buildNewLines (originalIndent : List Char) (oldLines : List (List Char)) :
    Nat → List (List Char) → List (List Char)
  | _, [] => []
  | j, line :: rest =>
      buildLine originalIndent oldLines j line
        :: buildNewLines originalIndent oldLines (j + 1) rest

/-- `content_lines.join("\n")`. -/
def joinNL (gs : List (List Char)) : List Char := List.intercalate ['\n'] gs

/-- The two failure modes of one edit. -/
inductive EditError where
  | tooManyLines
  | noMatch
deriving DecidableEq, Repr

/-- The body of the per-edit loop of `apply_file_edits`: exact first
occurrence replacement when `old_text` occurs literally, otherwise the
whitespace-tolerant window match with indent-preserving splice;
errors when `old_text` spans more lines than the buffer or no window
matches. -/
def applyEdit (content oldText newText : List Char) : Except EditError (List Char) :=
  let normalizedOld := normalize_line_endings oldText
  let normalizedNew := normalize_line_endings newText
  match firstMatchIdx normalizedOld content with
  | some i =>
      .ok (content.take i ++ normalizedNew ++ content.drop (i + normalizedOld.length))
  | none =>
      let oldLines := splitNL (trimEndL normalizedOld)
      let contentLines := splitNL (trimEndL content)
      if oldLines.length > contentLines.length then .error .tooManyLines
      else
        match findWindow contentLines oldLines with
        | none => .error .noMatch
        | some i =>
            let originalIndent := leadingWS ((contentLines.get? i).getD [])
            let newLines := buildNewLines originalIndent oldLines 0 (splitNL normalizedNew)
            .ok (joinNL (contentLines.take i ++ newLines
              ++ contentLines.drop (i + oldLines.length)))

/-- The sequential application of all edits to the working buffer. -/
def applyEditsFold (content : List Char) (edits : List (List Char × List Char)) :
    Except EditError (List Char) :=
  edits.foldlM (fun c e => applyEdit c e.1 e.2) content

/-- `modified_content.replace("\n", original_line_ending)`. -/
def restoreLineEndings (ole : List Char) (l : List Char) : List Char :=
  l.flatMap (fun c => if c = '\n' then ole else [c])

/-- `FileSystemService::apply_file_edits` after path validation and
read: the returned value models the single write the function can
perform — `none` when nothing is written (dry run), `some c` when the
target file receives `c`; any edit failure aborts before the write. -/
def apply_file_edits (content : List Char) (edits : List (List Char × List Char))
    (dryRun : Option Bool) : Except EditError (Option (List Char)) :=
  let originalLineEnding := detect_line_ending content
  let contentStr := normalize_line_endings content
  match applyEditsFold contentStr edits with
  | .error e => .error e
  | .ok modified =>
      .ok (if dryRun.getD false then none
        else some (restoreLineEndings originalLineEnding modified))

/-- The content of the file at `path` after the call: unchanged unless
the call succeeded, was not a dry run, and no `save_to` redirect was
given (a redirect writes to `save_to`, leaving `path` untouched). -/
def fileAfterEdits (content : List Char) (edits : List (List Char × List Char))
    (dryRun : Option Bool) (saveToGiven : Bool) : List Char :=
  match apply_file_edits content edits dryRun with
  | .error _ => content
  | .ok none => content
  | .ok (some w) => if saveToGiven then content else w

/-- C4: `apply_file_edits` is all-or-nothing: when any edit in the
sequence fails the file is left unchanged; in dry-run mode the file is
never written; and on success without dry-run the written content is
the full sequential application of every edit, with the original line
ending restored. -/
theorem C4_apply_file_edits_atomic (content : List Char)
    (edits : List (List Char × List Char)) (dryRun : Option Bool) (saveToGiven : Bool) :
    (∀ e, applyEditsFold (normalize_line_endings content) edits = .error e →
      fileAfterEdits content edits dryRun saveToGiven = content)
    ∧ (dryRun = some true →
      fileAfterEdits content edits dryRun saveToGiven = content)
    ∧ (∀ final, applyEditsFold (normalize_line_endings content) edits = .ok final →
      dryRun.getD false = false → saveToGiven = false →
      fileAfterEdits content edits dryRun saveToGiven
        = restoreLineEndings (detect_line_ending content) final) := by
  refine ⟨?_, ?_, ?_⟩
  · intro e he
    simp only [fileAfterEdits, apply_file_edits, he]
  · intro hd
    subst hd
    simp only [fileAfterEdits, apply_file_edits]
    rcases applyEditsFold (normalize_line_endings content) edits with _ | m <;> simp
  · intro final hf hd hs
    subst hs
    simp only [fileAfterEdits, apply_file_edits, hf, hd]
    simp

theorem C4_apply_file_edits_atomic_witness :
    fileAfterEdits "x".toList [("nope".toList, "y".toList)] none false = "x".toList
    ∧ fileAfterEdits "ab".toList [("ab".toList, "cd".toList)] (some true) false
        = "ab".toList := by
  refine ⟨(C4_apply_file_edits_atomic "x".toList [("nope".toList, "y".toList)]
      none false).1 .noMatch rfl,
    (C4_apply_file_edits_atomic "ab".toList [("ab".toList, "cd".toList)]
      (some true) false).2.1 rfl⟩

/-- C7 (counterexample): in the S2 scenario the file does not become
`"    foo()\n    baz()\n"`.  The fuzzy pass splits the buffer after
`trim_end()`, so the file's trailing newline is dropped: the result is
`"    foo()\n    baz()"`. -/
theorem C7_s2_trailing_newline_lost :
    fileAfterEdits "    foo()\n    bar()\n".toList
        [("foo()\nbar()".toList, "foo()\nbaz()".toList)] none false
      = "    foo()\n    baz()".toList
    ∧ "    foo()\n    baz()".toList ≠ "    foo()\n    baz()\n".toList := by
  exact ⟨rfl, by decide⟩

/-- C7 (amended): whenever the fuzzy pass matches a window starting at
line `i`, the spliced replacement follows the claimed indent rule —
line 0 is `base_indent ++ lstrip(new_line_0)`; line `j > 0` is
`base_indent ++ unit^max(0, len(new_indent_j) - len(old_indent_j)) ++
lstrip(new_line_j)` with `old_indent_j` empty for `j ≥ len(old_lines)`
and the unit a tab exactly when `base_indent` contains one — but in the
S2 scenario the file becomes `"    foo()\n    baz()"`: the buffer's
trailing newline is lost because the fuzzy pass trims the buffer before
splitting. -/
theorem C7_fuzzy_indent_rule :
    (∀ base ols line, buildLine base ols 0 line = base ++ trimStartL line)
    ∧ (∀ base ols j line, 0 < j →
      buildLine base ols j line
        = base
          ++ List.replicate
              (Int.toNat (max 0 (((leadingWS line).length : Int)
                - ((leadingWS ((ols.get? j).getD [])).length : Int))))
              (if base.contains '\t' then '\t' else ' ')
          ++ trimStartL line)
    ∧ (∀ content oldText newText cls ols i,
      cls = splitNL (trimEndL content) →
      ols = splitNL (trimEndL (normalize_line_endings oldText)) →
      firstMatchIdx (normalize_line_endings oldText) content = none →
      ¬ ols.length > cls.length →
      findWindow cls ols = some i →
      applyEdit content oldText newText
        = .ok (joinNL (cls.take i
            ++ buildNewLines (leadingWS ((cls.get? i).getD [])) ols 0
                (splitNL (normalize_line_endings newText))
            ++ cls.drop (i + ols.length))))
    ∧ fileAfterEdits "    foo()\n    bar()\n".toList
        [("foo()\nbar()".toList, "foo()\nbaz()".toList)] none false
      = "    foo()\n    baz()".toList := by
  refine ⟨?_, ?_, ?_, rfl⟩
  · intro base ols line
    simp [buildLine]
  · intro base ols j line hj
    have hj0 : j ≠ 0 := Nat.pos_iff_ne_zero.1 hj
    have h2 : Int.toNat (max 0 (((leadingWS line).length : Int)
        - ((leadingWS ((ols.get? j).getD [])).length : Int)))
        = (leadingWS line).length - (leadingWS ((ols.get? j).getD [])).length := by
      omega
    simp only [buildLine, if_neg hj0, h2]
  · intro content oldText newText cls ols i hcls hols hno hlen hfind
    subst hcls hols
    simp only [applyEdit, hno]
    rw [if_neg hlen]
    simp only [hfind]

theorem C7_fuzzy_indent_rule_witness :
    buildLine [' ', ' '] [] 1 "x".toList
      = [' ', ' ']
        ++ List.replicate
            (Int.toNat (max 0 (((leadingWS "x".toList).length : Int)
              - ((leadingWS ((([] : List (List Char)).get? 1).getD [])).length : Int))))
            (if [' ', ' '].contains '\t' then '\t' else ' ')
        ++ trimStartL "x".toList :=
  C7_fuzzy_indent_rule.2.1 [' ', ' '] [] 1 "x".toList (by decide)

/-! ### Byte-range file I/O: `tail_file` and `read_file_lines`
(src/fs_service.rs) -/

/-- One `read_until(b'\n')` call: the consumed bytes (up to and
including the newline, or everything when none remains) and the rest. -/
def takeLine : List Char → List Char × List Char
  | [] => ([], [])
  | c :: t => if c = '\n' then ([c], t) else (c :: (takeLine t).1, (takeLine t).2)

/-- The forward reading loop shared by `head_file`, `tail_file` and the
limited branch of `read_file_lines`: up to `n` `read_until` lines,
stopping at EOF (a final partial line counts as one line). -/
def readNLines : List Char → Nat → List Char
  | _, 0 => []
  | [], _ + 1 => []
  | l, n + 1 => (takeLine l).1 ++ readNLines (takeLine l).2 n

/-- The backward chunked newline scan of `tail_file`: 8 KiB chunks from
the end of the file towards the start, each chunk traversed in reverse,
recording newline byte positions (so the collected list is in strictly
decreasing position order).  The extra first argument is fuel: the scan
position strictly decreases every iteration, so `pos` itself is enough
fuel; the recursion is phrased this way to stay structural. -/
def chunkScanAux (content : List Char) : Nat → Nat → List Nat
  | 0, _ => []
  | _ + 1, 0 => []
  | fuel + 1, pos + 1 =>
      let readSize := min 8192 (pos + 1)
      let start := (pos + 1) - readSize
      let chunk := (content.drop start).take readSize
      (((List.range readSize).reverse.filter
          (fun i => chunk.get? i == some '\n')).map (start + ·))
        ++ chunkScanAux content fuel start

/-- All newline positions of the file, in decreasing order, as the
backward scan collects them. -/
def newlinePositionsDesc (content : List Char) : List Nat :=
  chunkScanAux content content.length content.length

/-- `FileSystemService::tail_file` on the file's contents: empty result
for an empty file or `n = 0`; otherwise count lines (a missing trailing
newline adds one for the final partial line), compute the start offset
from the collected newline positions, seek there and read `n` lines
forward. -/
def tail_file (content : List Char) (n : Nat) : List Char :=
  if content.length = 0 || n = 0 then []
  else
    let newlinePositions := newlinePositionsDesc content
    let lineCount := newlinePositions.length
      + (if content.getLast? ≠ some '\n' then 1 else 0)
    let startPos :=
      if lineCount ≤ n then 0
      else ((newlinePositions.get? (lineCount - n)).getD 0) + 1
    readNLines (content.drop startPos) n

/-- C5 (the code is the bug): the S3 scenario holds —
`tail_file "a\nb\nc" 2 = "b\nc"` — but the claimed universal property
fails: `tail_file "a\nb\nc" 1` returns `"\n"`, not the last line `"c"`
(the index into the descending newline-position list is off except in
special cases such as S3). -/
theorem C5_tail_file_eval :
    tail_file "a\nb\nc".toList 2 = "b\nc".toList
    ∧ tail_file "a\nb\nc".toList 1 = "\n".toList
    ∧ "\n".toList ≠ "c".toList
    ∧ tail_file "a\nb\nc\n".toList 2 = "c\n".toList
    ∧ "c\n".toList ≠ "b\nc\n".toList := by
  exact ⟨rfl, rfl, by decide, rfl, by decide⟩

/-- The skip loop of `read_file_lines`: `none` models the early
`return Ok(String::new())` taken when EOF arrives before `offset` lines
could be skipped. -/
def skipLines : Nat → List Char → Option (List Char)
  | 0, l => some l
  | k + 1, l => if l = [] then none else skipLines k (takeLine l).2

/-- `FileSystemService::read_file_lines` on the file's contents. -/
def read_file_lines (content : List Char) (offset : Nat) (limit : Option Nat) :
    List Char :=
  if content.length = 0 || limit == some 0 then []
  else
    match skipLines offset content with
    | none => []
    | some rest =>
        match limit with
        | some m => readNLines rest m
        | none => rest

/-- The number of non-empty `read_until` reads the file supports (its
line count, a final unterminated partial line counting as one line).
The first argument is fuel; the content length is always enough. -/
def countLinesF : Nat → List Char → Nat
  | 0, _ => 0
  | f + 1, l => if l = [] then 0 else countLinesF f (takeLine l).2 + 1

/-- Line count of a file's contents. -/
def countLines (l : List Char) : Nat := countLinesF l.length l

theorem takeLine_snd_length_lt (l : List Char) (h : l ≠ []) :
    (takeLine l).2.length < l.length := by
  induction l with
  | nil => exact absurd rfl h
  | cons c t ih =>
      by_cases hc : c = '\n'
      · simp [takeLine, hc]
      · simp only [takeLine, if_neg hc]
        rcases eq_or_ne t [] with rfl | ht
        · simp [takeLine]
        · exact Nat.lt_trans (ih ht) (by simp)

theorem countLinesF_nil (f : Nat) : countLinesF f [] = 0 := by
  cases f <;> simp [countLinesF]

theorem countLinesF_congr :
    ∀ (f f' : Nat) (l : List Char), l.length ≤ f → l.length ≤ f' →
      countLinesF f l = countLinesF f' l := by
  intro f
  induction f with
  | zero =>
      intro f' l hf _
      have : l = [] := List.length_eq_zero.1 (Nat.le_zero.1 hf)
      subst this
      rw [countLinesF_nil, countLinesF_nil]
  | succ f ih =>
      intro f' l hf hf'
      rcases eq_or_ne l [] with rfl | hl
      · rw [countLinesF_nil, countLinesF_nil]
      · have hpos : 0 < l.length := List.length_pos.2 hl
        obtain ⟨f'', rfl⟩ : ∃ f'', f' = f'' + 1 := by
          rcases f' with _ | f''
          · omega
          · exact ⟨f'', rfl⟩
        have hrest : (takeLine l).2.length < l.length := takeLine_snd_length_lt l hl
        simp only [countLinesF, if_neg hl]
        rw [ih f'' (takeLine l).2 (by omega) (by omega)]

theorem countLines_of_ne_nil (l : List Char) (h : l ≠ []) :
    countLines l = countLines (takeLine l).2 + 1 := by
  have hpos : 0 < l.length := List.length_pos.2 h
  obtain ⟨m, hm⟩ : ∃ m, l.length = m + 1 := ⟨l.length - 1, by omega⟩
  have hrest : (takeLine l).2.length < l.length := takeLine_snd_length_lt l h
  unfold countLines
  rw [hm]
  simp only [countLinesF, if_neg h]
  rw [countLinesF_congr m (takeLine l).2.length (takeLine l).2 (by omega) le_rfl]

theorem skipLines_eq_none (k : Nat) :
    ∀ l : List Char, countLines l < k → skipLines k l = none := by
  induction k with
  | zero => intro l h; omega
  | succ k ih =>
      intro l h
      rcases eq_or_ne l [] with rfl | hl
      · simp [skipLines]
      · simp only [skipLines, if_neg hl]
        exact ih (takeLine l).2 (by have := countLines_of_ne_nil l hl; omega)

/-- C10: `read_file_lines` returns the empty string, not an error, when
the file is empty, when the limit is `Some(0)`, and when EOF is reached
before `offset` lines have been skipped. -/
theorem C10_read_file_lines_empty (content : List Char) (offset : Nat)
    (limit : Option Nat)
    (h : content = [] ∨ limit = some 0 ∨ countLines content < offset) :
    read_file_lines content offset limit = [] := by
  unfold read_file_lines
  rcases h with rfl | rfl | hlt
  · simp
  · simp
  · split
    · rfl
    · rw [skipLines_eq_none offset content hlt]

theorem C10_read_file_lines_empty_witness :
    read_file_lines "a\nb".toList 5 none = []
    ∧ read_file_lines "x".toList 0 (some 0) = [] :=
  ⟨C10_read_file_lines_empty "a\nb".toList 5 none (Or.inr (Or.inr (by decide))),
    C10_read_file_lines_empty "x".toList 0 (some 0) (Or.inr (Or.inl rfl))⟩

/-! ### Content search: `extract_snippet`
(src/fs_service/search/content.rs, src/fs_service.rs) -/

/-- Total UTF-8 byte length of a character list. -/
def utf8Len (l : List Char) : Nat := (l.map Char.utf8Size).sum

/-- `char_indices().map(|(i, _)| i)` starting at byte offset `b`. -/
def charByteIndices : List Char → Nat → List Nat
  | [], _ => []
  | c :: t, b => b :: charByteIndices t (b + c.utf8Size)

/-- Drop the characters occupying the first `b` bytes (used only at
character-boundary byte offsets, where it models `&line[b..]`). -/
def dropBytes : List Char → Nat → List Char
  | l, 0 => l
  | [], _ => []
  | c :: t, b => dropBytes t (b - c.utf8Size)

/-- Keep the characters occupying the first `b` bytes (used only at
character-boundary byte offsets). -/
def takeBytes : List Char → Nat → List Char
  | _, 0 => []
  | [], _ => []
  | c :: t, b => c :: takeBytes t (b - c.utf8Size)

/-- `2^64`, the modulus of `usize` arithmetic on the target platform. -/
def U64 : Nat := 2 ^ 64

/-- `a - b` on `usize` in a release build: wrap-around subtraction
(valid model for `a, b < 2^64`).  In a debug build the same expression
panics when `b > a`. -/
def wrapSub (a b : Nat) : Nat := (a + U64 - b) % U64

/-- `FileSystemService::extract_snippet`.  The line is trimmed, the
desired start is `(match_start - leading_ws_bytes)` — an unchecked
`usize` subtraction, modelled with wrap-around — then
`saturating_sub(backward_chars)`; start and end are advanced to UTF-8
character boundaries and the slice is wrapped in ellipses when it does
not cover the whole trimmed line. -/
def extract_snippet (line : List Char) (matchStart : Nat)
    (maxLengthOpt backwardCharsOpt : Option Nat) : List Char :=
  let maxLength := maxLengthOpt.getD 200
  let backwardChars := backwardCharsOpt.getD 30
  let startPos := utf8Len line - utf8Len (trimStartL line)
  let lineT := trimL line
  let desiredStart := (wrapSub matchStart startPos) - backwardChars
  let snippetStart := ((charByteIndices lineT 0).find?
      (fun i => decide (desiredStart ≤ i))).getD (min desiredStart (utf8Len lineT))
  let suffix := dropBytes lineT snippetStart
  let desiredEnd :=
    match (charByteIndices suffix 0).get? maxLength with
    | some i => snippetStart + i
    | none => utf8Len lineT
  let snippetEnd := min (((charByteIndices lineT 0).find?
      (fun i => decide (desiredEnd ≤ i))).getD (utf8Len lineT)) (utf8Len lineT)
  let snippet := takeBytes suffix (snippetEnd - snippetStart)
  (if snippetStart > 0 then "...".toList else []) ++ snippet
    ++ (if snippetEnd < utf8Len lineT then "...".toList else [])

/-- C6 (the code is the bug): when the match begins inside the line's
leading whitespace (`match.start < trim_prefix`), the unchecked
subtraction `match_result.start() - start_pos` underflows.  On the line
`"  ab"` with the match at byte 1 (e.g. query `" a"`), a release build
wraps to a huge start and returns the snippet `"..."`, not the
`max(0, ...)`-based snippet `"ab"` the claim requires; a debug build
panics on the same input. -/
theorem C6_extract_snippet_underflow :
    extract_snippet "  ab".toList 1 none none = "...".toList
    ∧ extract_snippet "  ab".toList 1 none none ≠ "ab".toList
    ∧ extract_snippet "  ab".toList 2 none none = "ab".toList := by
  refine ⟨rfl, by decide, rfl⟩

/-! ### Duplicate finder: `find_duplicate_files`
(src/fs_service/search/files.rs, src/fs_service.rs).

The filesystem is a function from paths to contents (`File::open` +
read), contents are character lists, and SHA-256 is an abstract hash
function `h`; the claims hold under the standard idealization that the
hash is injective (collision-free).  Rust's `HashMap` grouping is
modelled as grouping by key in first-appearance order — the claims are
order-independent. -/

/-- The distinct keys of a list, keeping first appearances. -/
def uniqKeys {κ : Type _} [DecidableEq κ] : List κ → List κ
  | [] => []
  | k :: ks => k :: (uniqKeys ks).filter (fun x => x ≠ k)

/-- Group a list by a key: for each distinct key, the sublist of
elements carrying it, in their original order (the contents of one
`HashMap<_, Vec<_>>` built by repeated `entry().or_default().push`). -/
def groupByKey {α κ : Type _} [DecidableEq κ] (key : α → κ) (l : List α) :
    List (κ × List α) :=
  (uniqKeys (l.map key)).map (fun k => (k, l.filter (fun x => key x = k)))

/-- Keep the groups of more than one element and flatten them — the
`paths.len() > 1` filtering between the phases. -/
def survivorsOf {α κ : Type _} [DecidableEq κ] (key : α → κ) (l : List α) : List α :=
  ((groupByKey key l).filter (fun g => 1 < g.2.length)).flatMap (fun g => g.2)

/-- `FileSystemService::find_duplicate_files` after traversal: group
the walked files by size, discard singleton buckets; group the
survivors by the hash of the first 4 KiB, discard singletons; group
those survivors by the full-content hash and return every remaining
group of two or more paths. -/
def find_duplicate_files {β : Type _} [DecidableEq β] (h : List Char → β)
    (fs : String → List Char) (paths : List String) : List (List String) :=
  let survivors1 := survivorsOf (fun p => (fs p).length) paths
  let survivors2 := survivorsOf (fun p => h ((fs p).take 4096)) survivors1
  ((groupByKey (fun p => h (fs p)) survivors2).map (fun g => g.2)).filter
    (fun g => 1 < g.length)

theorem mem_uniqKeys {κ : Type _} [DecidableEq κ] (k : κ) :
    ∀ l : List κ, k ∈ uniqKeys l ↔ k ∈ l := by
  intro l
  induction l with
  | nil => simp [uniqKeys]
  | cons a t ih =>
      simp only [uniqKeys, List.mem_cons, List.mem_filter]
      constructor
      · rintro (rfl | ⟨hk, _⟩)
        · exact Or.inl rfl
        · exact Or.inr (ih.1 hk)
      · rintro (rfl | hk)
        · exact Or.inl rfl
        · rcases eq_or_ne k a with rfl | hne
          · exact Or.inl rfl
          · exact Or.inr ⟨ih.2 hk, by simpa using hne⟩

theorem mem_groupByKey {α κ : Type _} [DecidableEq κ] (key : α → κ) (l : List α)
    (kg : κ × List α) (h : kg ∈ groupByKey key l) :
    kg.2 = l.filter (fun x => key x = kg.1) := by
  obtain ⟨k, _, rfl⟩ := List.mem_map.1 h
  rfl

theorem groupOf_mem_groupByKey {α κ : Type _} [DecidableEq κ] (key : α → κ)
    (l : List α) (a : α) (ha : a ∈ l) :
    (key a, l.filter (fun x => key x = key a)) ∈ groupByKey key l := by
  refine List.mem_map.2 ⟨key a, ?_, rfl⟩
  exact (mem_uniqKeys (key a) (l.map key)).2 (List.mem_map.2 ⟨a, ha, rfl⟩)

theorem one_lt_length_of_two_mem {α : Type _} (l : List α) (a b : α)
    (ha : a ∈ l) (hb : b ∈ l) (hne : a ≠ b) : 1 < l.length := by
  rcases l with _ | ⟨x, _ | ⟨y, t⟩⟩
  · exact absurd ha (List.not_mem_nil a)
  · rw [List.mem_singleton] at ha hb
    exact absurd (ha.trans hb.symm) hne
  · simp only [List.length_cons]
    omega

theorem mem_survivorsOf {α κ : Type _} [DecidableEq κ] (key : α → κ) (l : List α)
    (a b : α) (ha : a ∈ l) (hb : b ∈ l) (hne : a ≠ b) (hk : key a = key b) :
    a ∈ survivorsOf key l := by
  have hmema : a ∈ l.filter (fun x => key x = key a) :=
    List.mem_filter.2 ⟨ha, by simp⟩
  have hmemb : b ∈ l.filter (fun x => key x = key a) :=
    List.mem_filter.2 ⟨hb, by simp [hk]⟩
  refine List.mem_flatMap.2 ⟨(key a, l.filter (fun x => key x = key a)), ?_, hmema⟩
  refine List.mem_filter.2 ⟨groupOf_mem_groupByKey key l a ha, ?_⟩
  simpa using one_lt_length_of_two_mem _ a b hmema hmemb hne

theorem survivorsOf_subset {α κ : Type _} [DecidableEq κ] (key : α → κ) (l : List α)
    (a : α) (ha : a ∈ survivorsOf key l) : a ∈ l := by
  obtain ⟨kg, hkg, hmem⟩ := List.mem_flatMap.1 ha
  have := mem_groupByKey key l kg (List.mem_filter.1 hkg).1
  rw [this] at hmem
  exact (List.mem_filter.1 hmem).1

/-- C8: every group returned by `find_duplicate_files` has at least two
paths; with a collision-free hash, any two paths in the same group have
identical contents and any two distinct traversed paths with identical
contents land in a common group; concretely, paths `A` and `B` holding
`"hello"` and `C` holding `"hellx"` produce exactly the group
`["A", "B"]`, with `C` absent. -/
theorem C8_find_duplicate_files_correct {β : Type _} [DecidableEq β]
    (h : List Char → β) (fs : String → List Char) (paths : List String)
    (hinj : Function.Injective h) :
    (∀ g ∈ find_duplicate_files h fs paths,
      1 < g.length ∧ ∀ p ∈ g, ∀ q ∈ g, fs p = fs q)
    ∧ (∀ p ∈ paths, ∀ q ∈ paths, p ≠ q → fs p = fs q →
      ∃ g ∈ find_duplicate_files h fs paths, p ∈ g ∧ q ∈ g)
    ∧ find_duplicate_files (fun c => c)
        (fun p => if p = "A" ∨ p = "B" then "hello".toList else "hellx".toList)
        ["A", "B", "C"]
      = [["A", "B"]] := by
  refine ⟨?_, ?_, rfl⟩
  · intro g hg
    simp only [find_duplicate_files] at hg
    obtain ⟨hmem, hlen⟩ := List.mem_filter.1 hg
    obtain ⟨kg, hkg, rfl⟩ := List.mem_map.1 hmem
    refine ⟨by simpa using hlen, ?_⟩
    intro p hp q hq
    have hkg2 := mem_groupByKey _ _ kg hkg
    rw [hkg2] at hp hq
    have hkp := (List.mem_filter.1 hp).2
    have hkq := (List.mem_filter.1 hq).2
    simp only [decide_eq_true_eq] at hkp hkq
    exact hinj (hkp.trans hkq.symm)
  · intro p hp q hq hne hfs
    have hs1p : p ∈ survivorsOf (fun x => (fs x).length) paths :=
      mem_survivorsOf _ paths p q hp hq hne (by rw [hfs])
    have hs1q : q ∈ survivorsOf (fun x => (fs x).length) paths :=
      mem_survivorsOf _ paths q p hq hp hne.symm (by rw [hfs])
    have hs2p : p ∈ survivorsOf (fun x => h ((fs x).take 4096))
        (survivorsOf (fun x => (fs x).length) paths) :=
      mem_survivorsOf _ _ p q hs1p hs1q hne (by rw [hfs])
    have hs2q : q ∈ survivorsOf (fun x => h ((fs x).take 4096))
        (survivorsOf (fun x => (fs x).length) paths) :=
      mem_survivorsOf _ _ q p hs1q hs1p hne.symm (by rw [hfs])
    set s2 := survivorsOf (fun x => h ((fs x).take 4096))
      (survivorsOf (fun x => (fs x).length) paths) with hs2
    refine ⟨s2.filter (fun x => h (fs x) = h (fs p)), ?_, ?_, ?_⟩
    · simp only [find_duplicate_files]
      refine List.mem_filter.2 ⟨List.mem_map.2
        ⟨(h (fs p), s2.filter (fun x => h (fs x) = h (fs p))),
          groupOf_mem_groupByKey _ s2 p hs2p, rfl⟩, ?_⟩
      have hpmem : p ∈ s2.filter (fun x => h (fs x) = h (fs p)) :=
        List.mem_filter.2 ⟨hs2p, by simp⟩
      have hqmem : q ∈ s2.filter (fun x => h (fs x) = h (fs p)) :=
        List.mem_filter.2 ⟨hs2q, by simp [hfs]⟩
      simpa using one_lt_length_of_two_mem _ p q hpmem hqmem hne
    · exact List.mem_filter.2 ⟨hs2p, by simp⟩
    · exact List.mem_filter.2 ⟨hs2q, by simp [hfs]⟩

theorem C8_find_duplicate_files_correct_witness :
    ∃ g ∈ find_duplicate_files (fun c => c)
        (fun p => if p = "A" ∨ p = "B" then "hello".toList else "hellx".toList)
        ["A", "B", "C"],
      "A" ∈ g ∧ "B" ∈ g :=
  (C8_find_duplicate_files_correct (fun c => c)
      (fun p => if p = "A" ∨ p = "B" then "hello".toList else "hellx".toList)
      ["A", "B", "C"] (fun _ _ hc => hc)).2.1
    "A" (by decide) "B" (by decide) (by decide) (by decide)

end FsService
